import Mathlib

/- Shallow embedding of the repository PokemonModelViewer.

   The quaternion decoder of src/test-unpack.py is embedded over exact real
   arithmetic: the Python float constants PI_QUARTER and PI_HALF become the
   corresponding real numbers, and math.sqrt becomes Real.sqrt.  Machine
   integers are Nat, with the very same bitwise operations the script uses.

   The shader-conversion wrapper src/web/tools/bnsh/bnsh2glsl.py is stateful
   glue around the filesystem and a subprocess; it is embedded by explicit
   state passing (BnshWorld records which paths exist and whether the
   external executable exits successfully). -/

/-- Constant SCALE = 0x7FFF of the source script. -/
def SCALE : ℕ := 0x7FFF

/-- Constant PI_QUARTER = math.pi / 4.0 of the source script. -/
noncomputable def PI_QUARTER : ℝ := Real.pi / 4

/-- Constant PI_HALF = math.pi / 2.0 of the source script. -/
noncomputable def PI_HALF : ℝ := Real.pi / 2

/-- Embedding of expand_float: i * (PI_HALF / SCALE) - PI_QUARTER. -/
noncomputable def expand_float (i : ℕ) : ℝ :=
  (i : ℝ) * (PI_HALF / (SCALE : ℝ)) - PI_QUARTER

/-- Reassembled 48-bit pack: (z << 32) | (y << 16) | x. -/
def pack48 (x y z : ℕ) : ℕ := (z <<< 32) ||| (y <<< 16) ||| x

/-- Embedding of the Python method list.insert(i, v): insert v before index i,
    appending at the end when i exceeds the length. -/
def pyInsert {α : Type} : ℕ → α → List α → List α
  | i, v, l =>
    match l, i with
    | [], _ => [v]
    | a :: t, 0 => v :: a :: t
    | a :: t, j + 1 => a :: pyInsert j v t

/-- Bit field (pack >> 3) & 0x7FFF of the source. -/
def fidx1 (x y z : ℕ) : ℕ := (pack48 x y z >>> 3) &&& 0x7FFF

/-- Bit field (pack >> 18) & 0x7FFF of the source. -/
def fidx2 (x y z : ℕ) : ℕ := (pack48 x y z >>> 18) &&& 0x7FFF

/-- Bit field (pack >> 33) & 0x7FFF of the source. -/
def fidx3 (x y z : ℕ) : ℕ := (pack48 x y z >>> 33) &&& 0x7FFF

/-- Local q1 = expand_float((pack >> 3) & 0x7FFF) of the source. -/
noncomputable def q1 (x y z : ℕ) : ℝ := expand_float (fidx1 x y z)

/-- Local q2 = expand_float((pack >> 18) & 0x7FFF) of the source. -/
noncomputable def q2 (x y z : ℕ) : ℝ := expand_float (fidx2 x y z)

/-- Local q3 = expand_float((pack >> 33) & 0x7FFF) of the source. -/
noncomputable def q3 (x y z : ℕ) : ℝ := expand_float (fidx3 x y z)

/-- Sum of squares q1*q1 + q2*q2 + q3*q3 appearing in the clamp. -/
noncomputable def sumSq (x y z : ℕ) : ℝ :=
  q1 x y z * q1 x y z + q2 x y z * q2 x y z + q3 x y z * q3 x y z

/-- Local max_component after both assignments of the source:
    math.sqrt(max(1.0 - (q1*q1 + q2*q2 + q3*q3), 0.0)). -/
noncomputable def max_component (x y z : ℕ) : ℝ :=
  Real.sqrt (max (1 - sumSq x y z) 0)

/-- Local missing_component = pack & 0b0011 of the source. -/
def missing_component (x y z : ℕ) : ℕ := pack48 x y z &&& 0b0011

/-- Local values after values.insert(missing_component, max_component). -/
noncomputable def valuesList (x y z : ℕ) : List ℝ :=
  pyInsert (missing_component x y z) (max_component x y z)
    [q1 x y z, q2 x y z, q3 x y z]

/-- Local is_negative = (pack & 0b0100) != 0 of the source. -/
def is_negative (x y z : ℕ) : Bool := pack48 x y z &&& 0b0100 != 0

/-- Embedding of unpack_48bit_quaternion: the returned list
    [values[3], values[0], values[1], values[2]], negated component-wise
    when is_negative holds. -/
noncomputable def unpack_48bit_quaternion (x y z : ℕ) : List ℝ :=
  if is_negative x y z then
    [-(valuesList x y z).getD 3 0, -(valuesList x y z).getD 0 0,
     -(valuesList x y z).getD 1 0, -(valuesList x y z).getD 2 0]
  else
    [(valuesList x y z).getD 3 0, (valuesList x y z).getD 0 0,
     (valuesList x y z).getD 1 0, (valuesList x y z).getD 2 0]

/-- Sum of the squares of the entries of a quaternion component list. -/
noncomputable def normSq (l : List ℝ) : ℝ := (l.map (fun a => a * a)).sum

/-- State passed to the shader-conversion model of bnsh2glsl.py: whether the
    input file exists, whether BnshToGlsl.exe exists, and whether the
    subprocess call exits with status 0. -/
structure BnshWorld where
  inputExists : Bool
  exeExists : Bool
  runSucceeds : Bool

/-- Embedding of convert_bnsh: first component is the returned boolean,
    second component records whether the external executable was invoked.
    The extension warning and all printing have no functional effect and are
    dropped; subprocess.run with check=True raising CalledProcessError is the
    runSucceeds = false case of the try block. -/
def convert_bnsh (w : BnshWorld) : Bool × Bool :=
  if !w.inputExists then (false, false)
  else if !w.exeExists then (false, false)
  else if w.runSucceeds then (true, true) else (false, true)

/-- Embedding of main of bnsh2glsl.py: the process status code, where argc is
    len(sys.argv). -/
def mainStatus (argc : ℕ) (w : BnshWorld) : ℕ :=
  if argc ≠ 3 then 1
  else if (convert_bnsh w).1 then 0 else 1

/-- Inserting with pyInsert increases the length by one. -/
theorem pyInsert_length {α : Type} (i : ℕ) (v : α) (l : List α) :
    (pyInsert i v l).length = l.length + 1 := by
  induction l generalizing i with
  | nil => simp [pyInsert]
  | cons a t ih =>
    cases i with
    | zero => simp [pyInsert]
    | succ j => simpa [pyInsert] using ih j

/-- Inserting with pyInsert is a permutation of prepending. -/
theorem pyInsert_perm {α : Type} (i : ℕ) (v : α) (l : List α) :
    List.Perm (pyInsert i v l) (v :: l) := by
  induction l generalizing i with
  | nil => simp [pyInsert]
  | cons a t ih =>
    cases i with
    | zero => simp [pyInsert]
    | succ j =>
      have hred : pyInsert (j + 1) v (a :: t) = a :: pyInsert j v t := by
        simp [pyInsert]
      rw [hred]
      exact ((ih j).cons a).trans (List.Perm.swap v a t)

/-- The 2-bit missing-component field is below 4. -/
theorem missing_lt (x y z : ℕ) : missing_component x y z < 4 :=
  Nat.lt_of_le_of_lt Nat.and_le_right (by norm_num)

/-- Masking with 0x7FFF is reduction mod 32768. -/
theorem and_mask15 (n : ℕ) : n &&& 0x7FFF = n % 32768 := by
  have h := Nat.and_pow_two_sub_one_eq_mod n 15
  norm_num at h
  exact h

/-- Masking with 0b0011 is reduction mod 4. -/
theorem and_mask3 (n : ℕ) : n &&& 3 = n % 4 := by
  have h := Nat.and_pow_two_sub_one_eq_mod n 2
  norm_num at h
  exact h

/-- Masking with 0b0100 extracts bit 2, written arithmetically. -/
theorem and_four_eq (n : ℕ) : n &&& 4 = n / 4 % 2 * 4 := by
  have h7 : n &&& 7 = n % 8 := by
    have h := Nat.and_pow_two_sub_one_eq_mod n 3
    norm_num at h
    exact h
  have h74 : (7 : ℕ) &&& 4 = 4 := rfl
  have hstep : (n &&& 7) &&& 4 = n &&& 4 := by rw [Nat.and_assoc, h74]
  rw [← hstep, h7]
  have hd : n % 8 / 4 % 2 * 4 = n / 4 % 2 * 4 := by omega
  rw [← hd]
  have hlt : n % 8 < 8 := Nat.mod_lt _ (by norm_num)
  set r := n % 8 with hr
  interval_cases r <;> rfl

/-- Reassembling the pack from in-range words is plain arithmetic. -/
theorem pack48_eq (x y z : ℕ) (hx : x < 65536) (hy : y < 65536) :
    pack48 x y z = 4294967296 * z + 65536 * y + x := by
  have p32 : (2 : ℕ) ^ 32 = 4294967296 := by norm_num
  have p16 : (2 : ℕ) ^ 16 = 65536 := by norm_num
  have hzy : (z <<< 32) ||| (y <<< 16) = 4294967296 * z + 65536 * y := by
    rw [Nat.shiftLeft_eq, Nat.shiftLeft_eq, p32, p16]
    have hb : 65536 * y < 2 ^ 32 := by rw [p32]; omega
    have h1 := Nat.mul_add_lt_is_or hb z
    rw [p32] at h1
    rw [Nat.mul_comm z, Nat.mul_comm y]
    exact h1.symm
  have hbx : x < 2 ^ 16 := by rw [p16]; exact hx
  have h2 := Nat.mul_add_lt_is_or hbx (65536 * z + y)
  rw [p16] at h2
  have harith : 65536 * (65536 * z + y) = 4294967296 * z + 65536 * y := by ring
  rw [harith] at h2
  unfold pack48
  rw [hzy]
  exact h2.symm

/-- First stored field, arithmetically: bits 3..17 of the pack. -/
theorem fidx1_arith (x y z : ℕ) (hx : x < 65536) (hy : y < 65536) :
    fidx1 x y z = 8192 * (y % 4) + x / 8 := by
  unfold fidx1
  rw [Nat.shiftRight_eq_div_pow, and_mask15, pack48_eq x y z hx hy]
  have h8 : (2 : ℕ) ^ 3 = 8 := by norm_num
  rw [h8]
  omega

/-- Second stored field, arithmetically: bits 18..32 of the pack. -/
theorem fidx2_arith (x y z : ℕ) (hx : x < 65536) (hy : y < 65536) :
    fidx2 x y z = 16384 * (z % 2) + y / 4 := by
  unfold fidx2
  rw [Nat.shiftRight_eq_div_pow, and_mask15, pack48_eq x y z hx hy]
  have h18 : (2 : ℕ) ^ 18 = 262144 := by norm_num
  rw [h18]
  omega

/-- Third stored field, arithmetically: bits 33..47 of the pack. -/
theorem fidx3_arith (x y z : ℕ) (hx : x < 65536) (hy : y < 65536)
    (hz : z < 65536) : fidx3 x y z = z / 2 := by
  unfold fidx3
  rw [Nat.shiftRight_eq_div_pow, and_mask15, pack48_eq x y z hx hy]
  have h33 : (2 : ℕ) ^ 33 = 8589934592 := by norm_num
  rw [h33]
  omega

/-- The missing-component field is the low 2 bits of x. -/
theorem missing_arith (x y z : ℕ) (hx : x < 65536) (hy : y < 65536) :
    missing_component x y z = x % 4 := by
  unfold missing_component
  rw [and_mask3, pack48_eq x y z hx hy]
  omega

/-- The sign flag is bit 2 of x. -/
theorem isneg_arith (x y z : ℕ) (hx : x < 65536) (hy : y < 65536) :
    is_negative x y z = decide (x / 4 % 2 = 1) := by
  unfold is_negative
  rw [and_four_eq, pack48_eq x y z hx hy]
  have hq : (4294967296 * z + 65536 * y + x) / 4 % 2 = x / 4 % 2 := by omega
  rw [hq]
  rcases Nat.mod_two_eq_zero_or_one (x / 4) with h | h <;> rw [h] <;> rfl

/-- Two inputs whose packs agree above bit 2 share the three expanded
    components and the reconstructed magnitude. -/
theorem fields_eq_of_hi (x y z u v w : ℕ)
    (h : pack48 x y z >>> 3 = pack48 u v w >>> 3) :
    q1 x y z = q1 u v w ∧ q2 x y z = q2 u v w ∧ q3 x y z = q3 u v w ∧
    sumSq x y z = sumSq u v w ∧ max_component x y z = max_component u v w := by
  have h18 : pack48 x y z >>> 18 = pack48 u v w >>> 18 := by
    have e1 : pack48 x y z >>> 18 = pack48 x y z >>> 3 >>> 15 := by
      rw [← Nat.shiftRight_add]
    have e2 : pack48 u v w >>> 18 = pack48 u v w >>> 3 >>> 15 := by
      rw [← Nat.shiftRight_add]
    rw [e1, e2, h]
  have h33 : pack48 x y z >>> 33 = pack48 u v w >>> 33 := by
    have e1 : pack48 x y z >>> 33 = pack48 x y z >>> 3 >>> 30 := by
      rw [← Nat.shiftRight_add]
    have e2 : pack48 u v w >>> 33 = pack48 u v w >>> 3 >>> 30 := by
      rw [← Nat.shiftRight_add]
    rw [e1, e2, h]
  have hq1 : q1 x y z = q1 u v w := by unfold q1 fidx1; rw [h]
  have hq2 : q2 x y z = q2 u v w := by unfold q2 fidx2; rw [h18]
  have hq3 : q3 x y z = q3 u v w := by unfold q3 fidx3; rw [h33]
  have hs : sumSq x y z = sumSq u v w := by unfold sumSq; rw [hq1, hq2, hq3]
  have hmc : max_component x y z = max_component u v w := by
    unfold max_component; rw [hs]
  exact ⟨hq1, hq2, hq3, hs, hmc⟩

/-- The values list is one of the four explicit insert positions. -/
theorem valuesList_cases (x y z : ℕ) :
    valuesList x y z =
        [max_component x y z, q1 x y z, q2 x y z, q3 x y z] ∨
    valuesList x y z =
        [q1 x y z, max_component x y z, q2 x y z, q3 x y z] ∨
    valuesList x y z =
        [q1 x y z, q2 x y z, max_component x y z, q3 x y z] ∨
    valuesList x y z =
        [q1 x y z, q2 x y z, q3 x y z, max_component x y z] := by
  have hm := missing_lt x y z
  have h4 : missing_component x y z = 0 ∨ missing_component x y z = 1 ∨
      missing_component x y z = 2 ∨ missing_component x y z = 3 := by omega
  rcases h4 with h | h | h | h
  · left; unfold valuesList; rw [h]; simp [pyInsert]
  · right; left; unfold valuesList; rw [h]; simp [pyInsert]
  · right; right; left; unfold valuesList; rw [h]; simp [pyInsert]
  · right; right; right; unfold valuesList; rw [h]; simp [pyInsert]

/-- Rotating a 4-element list by three places. -/
theorem rotate3_four {α : Type} (a b c d : α) :
    [a, b, c, d].rotate 3 = [d, a, b, c] := by
  simp [List.rotate]

/-- The unpack result is the fixed rotation of the values list, negated
    component-wise exactly when the sign flag is set. -/
theorem unpack_rot (x y z : ℕ) :
    unpack_48bit_quaternion x y z =
      if is_negative x y z then
        ((valuesList x y z).rotate 3).map (fun a => -a)
      else (valuesList x y z).rotate 3 := by
  rcases valuesList_cases x y z with h | h | h | h <;>
    rcases Bool.eq_false_or_eq_true (is_negative x y z) with hb | hb <;>
      simp [unpack_48bit_quaternion, h, hb, rotate3_four]

/-- normSq is invariant under permutation. -/
theorem normSq_perm (l t : List ℝ) (h : List.Perm l t) : normSq l = normSq t := by
  unfold normSq
  exact List.Perm.sum_eq (h.map _)

/-- normSq is invariant under component-wise negation. -/
theorem normSq_neg (l : List ℝ) : normSq (l.map (fun a => -a)) = normSq l := by
  unfold normSq
  rw [List.map_map]
  have hfun : ((fun a : ℝ => a * a) ∘ fun a : ℝ => -a) = fun a : ℝ => a * a := by
    funext a
    simp
  rw [hfun]

/-- The squared norm of the unpack result is the magnitude squared plus the
    sum of squares of the three stored components. -/
theorem normSq_unpack (x y z : ℕ) :
    normSq (unpack_48bit_quaternion x y z) =
      max_component x y z * max_component x y z + sumSq x y z := by
  have hperm : List.Perm ((valuesList x y z).rotate 3)
      (max_component x y z :: [q1 x y z, q2 x y z, q3 x y z]) :=
    (List.rotate_perm _ 3).trans (pyInsert_perm _ _ _)
  rw [unpack_rot]
  rcases Bool.eq_false_or_eq_true (is_negative x y z) with hb | hb <;>
    rw [hb] <;> simp only [if_true, if_false, Bool.false_eq_true, if_neg,
      ite_true, ite_false]
  · rw [normSq_neg, normSq_perm _ _ hperm]
    unfold normSq sumSq
    simp [List.sum_cons]
    ring
  · rw [normSq_perm _ _ hperm]
    unfold normSq sumSq
    simp [List.sum_cons]
    ring

/-- When the stored components' squares sum to at most 1, the unpack result
    has squared norm exactly 1. -/
theorem norm_eq_one_of_le (x y z : ℕ) (h : sumSq x y z ≤ 1) :
    normSq (unpack_48bit_quaternion x y z) = 1 := by
  rw [normSq_unpack]
  have h1 : max (1 - sumSq x y z) 0 = 1 - sumSq x y z :=
    max_eq_left (by linarith)
  have h2 : max_component x y z * max_component x y z = 1 - sumSq x y z := by
    unfold max_component
    rw [h1]
    exact Real.mul_self_sqrt (by linarith)
  rw [h2]
  ring

/-- Element inserted by pyInsert sits at the insertion index. -/
theorem pyInsert_getD {α : Type} (i : ℕ) (v d : α) (l : List α)
    (h : i ≤ l.length) : (pyInsert i v l).getD i d = v := by
  induction l generalizing i with
  | nil =>
    have hi : i = 0 := by simpa using h
    subst hi
    simp [pyInsert]
  | cons a t ih =>
    cases i with
    | zero => simp [pyInsert]
    | succ n =>
      have hred : pyInsert (n + 1) v (a :: t) = a :: pyInsert n v t := by
        simp [pyInsert]
      rw [hred]
      simp only [List.getD_cons_succ]
      exact ih n (by simpa using h)

/-- Erasing the insertion index undoes pyInsert. -/
theorem pyInsert_eraseIdx {α : Type} (i : ℕ) (v : α) (l : List α)
    (h : i ≤ l.length) : (pyInsert i v l).eraseIdx i = l := by
  induction l generalizing i with
  | nil =>
    have hi : i = 0 := by simpa using h
    subst hi
    simp [pyInsert]
  | cons a t ih =>
    cases i with
    | zero => simp [pyInsert]
    | succ n =>
      have hred : pyInsert (n + 1) v (a :: t) = a :: pyInsert n v t := by
        simp [pyInsert]
      rw [hred]
      simp only [List.eraseIdx_cons_succ]
      rw [ih n (by simpa using h)]

/-- The sample input (0, 2, 32769) stores three mid-scale fields, so the
    squares of its expanded components sum below 1. -/
theorem sumSq_sample_le_one : sumSq 0 2 32769 ≤ 1 := by
  have h1 : fidx1 0 2 32769 = 16384 := rfl
  have h2 : fidx2 0 2 32769 = 16384 := rfl
  have h3 : fidx3 0 2 32769 = 16384 := rfl
  unfold sumSq q1 q2 q3
  rw [h1, h2, h3]
  unfold expand_float PI_HALF PI_QUARTER SCALE
  push_cast
  nlinarith [Real.pi_le_four, Real.pi_pos]

/-- The all-zero input stores three components expanding to minus pi over 4,
    whose squares sum above 1. -/
theorem sumSq_zero_gt_one : 1 < sumSq 0 0 0 := by
  have h1 : fidx1 0 0 0 = 0 := rfl
  have h2 : fidx2 0 0 0 = 0 := rfl
  have h3 : fidx3 0 0 0 = 0 := rfl
  unfold sumSq q1 q2 q3
  rw [h1, h2, h3]
  unfold expand_float PI_HALF PI_QUARTER SCALE
  push_cast
  nlinarith [Real.pi_gt_three, Real.pi_pos]

/-- The golden input (42, 61442, 62196) stores fields 16389, 15360, 31098,
    whose expanded squares sum below 1. -/
theorem sumSq_golden_le_one : sumSq 42 61442 62196 ≤ 1 := by
  have h1 : fidx1 42 61442 62196 = 16389 := rfl
  have h2 : fidx2 42 61442 62196 = 15360 := rfl
  have h3 : fidx3 42 61442 62196 = 31098 := rfl
  unfold sumSq q1 q2 q3
  rw [h1, h2, h3]
  unfold expand_float PI_HALF PI_QUARTER SCALE
  push_cast
  nlinarith [Real.pi_le_four, Real.pi_pos]

/-- C1: for 16-bit inputs whose three expanded components q1, q2, q3 have
    squares summing to at most 1, the four components returned by
    unpack_48bit_quaternion satisfy the unit-norm invariant exactly over
    exact real arithmetic, whichever sign branch is taken. -/
theorem C1_unit_norm (x y z : ℕ) (hx : x < 65536) (hy : y < 65536)
    (hz : z < 65536) (h : sumSq x y z ≤ 1) :
    normSq (unpack_48bit_quaternion x y z) = 1 :=
  norm_eq_one_of_le x y z h

/-- Witness for C1 at the concrete input (0, 2, 32769). -/
theorem C1_unit_norm_witness :
    sumSq 0 2 32769 ≤ 1 ∧ normSq (unpack_48bit_quaternion 0 2 32769) = 1 :=
  ⟨sumSq_sample_le_one,
    C1_unit_norm 0 2 32769 (by norm_num) (by norm_num) (by norm_num)
      sumSq_sample_le_one⟩

/-- C2: the sqrt argument is never negative and the reconstructed magnitude
    is a well-defined non-negative real; when the squared sum exceeds 1 the
    magnitude is exactly 0, and when it is at most 1 the magnitude is the
    square root of 1 minus the sum. -/
theorem C2_clamp_sqrt (x y z : ℕ) :
    0 ≤ max (1 - sumSq x y z) 0 ∧ 0 ≤ max_component x y z ∧
    (1 < sumSq x y z → max_component x y z = 0) ∧
    (sumSq x y z ≤ 1 → max_component x y z = Real.sqrt (1 - sumSq x y z)) := by
  refine ⟨le_max_right _ _, Real.sqrt_nonneg _, fun h => ?_, fun h => ?_⟩
  · unfold max_component
    rw [max_eq_right (by linarith), Real.sqrt_zero]
  · unfold max_component
    rw [max_eq_left (by linarith)]

/-- C3: for a fixed 16-bit triple with bit 2 of the reassembled pack cleared
    versus set and all other bits identical, the two outputs are exact
    component-wise negations of each other. -/
theorem C3_sign_toggle (x y z : ℕ) (hx : x < 65536) (hy : y < 65536)
    (hz : z < 65536) (hbit : x &&& 4 = 0) :
    unpack_48bit_quaternion (x + 4) y z =
      (unpack_48bit_quaternion x y z).map (fun a => -a) := by
  have hx4 : x / 4 % 2 = 0 := by
    have h := and_four_eq x
    omega
  have hx5 : x + 4 < 65536 := by omega
  have hhi : pack48 (x + 4) y z >>> 3 = pack48 x y z >>> 3 := by
    rw [Nat.shiftRight_eq_div_pow, Nat.shiftRight_eq_div_pow,
      pack48_eq _ y z hx5 hy, pack48_eq x y z hx hy]
    have h8 : (2 : ℕ) ^ 3 = 8 := by norm_num
    rw [h8]
    omega
  obtain ⟨hq1, hq2, hq3, hs, hmc⟩ := fields_eq_of_hi (x + 4) y z x y z hhi
  have hmiss : missing_component (x + 4) y z = missing_component x y z := by
    rw [missing_arith _ y z hx5 hy, missing_arith x y z hx hy]
    omega
  have hvals : valuesList (x + 4) y z = valuesList x y z := by
    unfold valuesList
    rw [hq1, hq2, hq3, hmc, hmiss]
  have hneg1 : is_negative (x + 4) y z = true := by
    rw [isneg_arith _ y z hx5 hy]
    simp only [decide_eq_true_eq]
    omega
  have hneg0 : is_negative x y z = false := by
    rw [isneg_arith x y z hx hy]
    simp only [decide_eq_false_iff_not]
    omega
  rw [unpack_rot, unpack_rot, hvals, hneg1, hneg0]
  simp

/-- Witness for C3 at the concrete input (0, 2, 32769). -/
theorem C3_sign_toggle_witness :
    (0 : ℕ) &&& 4 = 0 ∧
    unpack_48bit_quaternion (0 + 4) 2 32769 =
      (unpack_48bit_quaternion 0 2 32769).map (fun a => -a) :=
  ⟨rfl, C3_sign_toggle 0 2 32769 (by norm_num) (by norm_num) (by norm_num) rfl⟩

/-- C4: the pre-rotation list carries the reconstructed magnitude at position
    missing_component with the three expanded values around it in their
    original order, and overwriting the 2-bit field with any j below 4 while
    keeping the other bits moves the unchanged magnitude to position j. -/
theorem C4_missing_insert (x y z j : ℕ) (hx : x < 65536) (hy : y < 65536)
    (hj : j < 4) :
    (valuesList x y z).getD (missing_component x y z) 0 = max_component x y z ∧
    (valuesList x y z).eraseIdx (missing_component x y z) =
      [q1 x y z, q2 x y z, q3 x y z] ∧
    missing_component (x / 4 * 4 + j) y z = j ∧
    max_component (x / 4 * 4 + j) y z = max_component x y z ∧
    (valuesList (x / 4 * 4 + j) y z).getD j 0 = max_component x y z := by
  have hm := missing_lt x y z
  have hlen : ([q1 x y z, q2 x y z, q3 x y z] : List ℝ).length = 3 := rfl
  have h1 : (valuesList x y z).getD (missing_component x y z) 0 =
      max_component x y z := by
    unfold valuesList
    exact pyInsert_getD _ _ _ _ (by omega)
  have h2 : (valuesList x y z).eraseIdx (missing_component x y z) =
      [q1 x y z, q2 x y z, q3 x y z] := by
    unfold valuesList
    exact pyInsert_eraseIdx _ _ _ (by omega)
  have hx2 : x / 4 * 4 + j < 65536 := by omega
  have h3 : missing_component (x / 4 * 4 + j) y z = j := by
    rw [missing_arith _ y z hx2 hy]
    omega
  have hhi : pack48 (x / 4 * 4 + j) y z >>> 3 = pack48 x y z >>> 3 := by
    rw [Nat.shiftRight_eq_div_pow, Nat.shiftRight_eq_div_pow,
      pack48_eq _ y z hx2 hy, pack48_eq x y z hx hy]
    have h8 : (2 : ℕ) ^ 3 = 8 := by norm_num
    rw [h8]
    omega
  obtain ⟨hq1, hq2, hq3, hs, hmc⟩ := fields_eq_of_hi (x / 4 * 4 + j) y z x y z hhi
  have h5 : (valuesList (x / 4 * 4 + j) y z).getD j 0 =
      max_component x y z := by
    unfold valuesList
    rw [h3]
    rw [← hmc]
    exact pyInsert_getD _ _ _ _
      (by simp only [List.length_cons, List.length_nil]; omega)
  exact ⟨h1, h2, h3, hmc, h5⟩

/-- Witness for C4 at the concrete input (0, 2, 32769) with j = 2. -/
theorem C4_missing_insert_witness :
    (valuesList 0 2 32769).getD (missing_component 0 2 32769) 0 =
        max_component 0 2 32769 ∧
    (valuesList 0 2 32769).eraseIdx (missing_component 0 2 32769) =
      [q1 0 2 32769, q2 0 2 32769, q3 0 2 32769] ∧
    missing_component (0 / 4 * 4 + 2) 2 32769 = 2 ∧
    max_component (0 / 4 * 4 + 2) 2 32769 = max_component 0 2 32769 ∧
    (valuesList (0 / 4 * 4 + 2) 2 32769).getD 2 0 = max_component 0 2 32769 :=
  C4_missing_insert 0 2 32769 2 (by norm_num) (by norm_num) (by norm_num)

/-- C5: before sign negation, the output is the fixed cyclic rotation
    [values[3], values[0], values[1], values[2]] of the pre-rotation list,
    and the negation branch negates exactly that rotation. -/
theorem C5_rotation (x y z : ℕ) :
    unpack_48bit_quaternion x y z =
      (if is_negative x y z then List.map (fun a => -a) else id)
        [(valuesList x y z).getD 3 0, (valuesList x y z).getD 0 0,
         (valuesList x y z).getD 1 0, (valuesList x y z).getD 2 0] ∧
    [(valuesList x y z).getD 3 0, (valuesList x y z).getD 0 0,
     (valuesList x y z).getD 1 0, (valuesList x y z).getD 2 0] =
      (valuesList x y z).rotate 3 := by
  constructor
  · rcases Bool.eq_false_or_eq_true (is_negative x y z) with hb | hb <;>
      simp [unpack_48bit_quaternion, hb]
  · rcases valuesList_cases x y z with h | h | h | h <;>
      rw [h] <;> simp [rotate3_four]

/-- C6: expand_float is the affine map with scale pi/2 divided by 32767 and
    offset minus pi/4; the endpoints map exactly to minus pi/4 and to
    pi/2 minus pi/4, which is pi/4, and all of 0..32767 lands inside
    the closed interval from minus pi/4 to pi/4. -/
theorem C6_expand_bounds :
    expand_float 0 = -(Real.pi / 4) ∧
    expand_float 32767 = Real.pi / 2 - Real.pi / 4 ∧
    expand_float 32767 = Real.pi / 4 ∧
    (∀ i : ℕ, expand_float i = (i : ℝ) * (Real.pi / 2 / 32767) - Real.pi / 4) ∧
    ∀ i : ℕ, i ≤ 32767 →
      -(Real.pi / 4) ≤ expand_float i ∧ expand_float i ≤ Real.pi / 4 := by
  have hform : ∀ i : ℕ,
      expand_float i = (i : ℝ) * (Real.pi / 2 / 32767) - Real.pi / 4 := by
    intro i
    unfold expand_float PI_HALF PI_QUARTER SCALE
    norm_num
  refine ⟨?_, ?_, ?_, hform, ?_⟩
  · rw [hform]
    norm_num
  · rw [hform]
    have h0 : (32767 : ℝ) ≠ 0 := by norm_num
    field_simp
    ring
  · rw [hform]
    have h0 : (32767 : ℝ) ≠ 0 := by norm_num
    field_simp
    ring
  · intro i hi
    have hicast : (i : ℝ) ≤ 32767 := by exact_mod_cast hi
    have hipos : (0 : ℝ) ≤ (i : ℝ) := Nat.cast_nonneg i
    have hu : (0 : ℝ) ≤ Real.pi / 2 / 32767 := by positivity
    have h1 : (i : ℝ) * (Real.pi / 2 / 32767) ≤
        32767 * (Real.pi / 2 / 32767) :=
      mul_le_mul_of_nonneg_right hicast hu
    have h2 : (0 : ℝ) ≤ (i : ℝ) * (Real.pi / 2 / 32767) :=
      mul_nonneg hipos hu
    rw [hform]
    constructor
    · nlinarith [Real.pi_pos]
    · nlinarith [Real.pi_pos]

/-- C7: unpack_48bit_quaternion is total over all inputs: it always returns a
    4-component list, rejecting no bit pattern. -/
theorem C7_total (x y z : ℕ) : (unpack_48bit_quaternion x y z).length = 4 := by
  rcases Bool.eq_false_or_eq_true (is_negative x y z) with hb | hb <;>
    simp [unpack_48bit_quaternion, hb]

/-- C8: the golden input (42, 61442, 62196) produces components whose squared
    norm is within 1e-6 of 1; over exact reals it is exactly 1. -/
theorem C8_golden :
    |normSq (unpack_48bit_quaternion 42 61442 62196) - 1| < 1 / 1000000 := by
  rw [norm_eq_one_of_le 42 61442 62196 sumSq_golden_le_one]
  norm_num

/-- C9: the shader-conversion CLI exits 0 exactly when conversion succeeds
    and 1 when it fails; a missing input file makes convert_bnsh return False
    without invoking the external executable; a wrong argument count exits 1. -/
theorem C9_cli (w : BnshWorld) (argc : ℕ) :
    (argc ≠ 3 → mainStatus argc w = 1) ∧
    (w.inputExists = false → convert_bnsh w = (false, false)) ∧
    mainStatus 3 w = (if (convert_bnsh w).1 then 0 else 1) := by
  refine ⟨fun h => ?_, fun h => ?_, ?_⟩
  · simp [mainStatus, h]
  · simp [convert_bnsh, h]
  · simp [mainStatus]

/-- C10: the low 3 bits of x do not interfere with the stored magnitudes:
    when the reassembled packs agree on all bits above bit 2, the expanded
    values and the reconstructed magnitude coincide, and the absolute values
    of the four output components form the same multiset. -/
theorem C10_noninterference (x t y z : ℕ)
    (h : pack48 x y z >>> 3 = pack48 t y z >>> 3) :
    q1 x y z = q1 t y z ∧ q2 x y z = q2 t y z ∧ q3 x y z = q3 t y z ∧
    max_component x y z = max_component t y z ∧
    List.Perm ((unpack_48bit_quaternion x y z).map (fun a => |a|))
      ((unpack_48bit_quaternion t y z).map (fun a => |a|)) := by
  obtain ⟨hq1, hq2, hq3, hs, hmc⟩ := fields_eq_of_hi x y z t y z h
  refine ⟨hq1, hq2, hq3, hmc, ?_⟩
  have key : ∀ a b c : ℕ,
      List.Perm ((unpack_48bit_quaternion a b c).map (fun r => |r|))
        [|max_component a b c|, |q1 a b c|, |q2 a b c|, |q3 a b c|] := by
    intro a b c
    have hperm : List.Perm ((valuesList a b c).rotate 3)
        (max_component a b c :: [q1 a b c, q2 a b c, q3 a b c]) :=
      (List.rotate_perm _ 3).trans (pyInsert_perm _ _ _)
    rw [unpack_rot]
    rcases Bool.eq_false_or_eq_true (is_negative a b c) with hb | hb <;>
      rw [hb] <;> simp only [ite_true, ite_false, Bool.false_eq_true, if_false,
        if_true]
    · rw [List.map_map]
      have habs : ((fun r : ℝ => |r|) ∘ fun r : ℝ => -r) =
          fun r : ℝ => |r| := by
        funext r
        simp [abs_neg]
      rw [habs]
      simpa using hperm.map (fun r : ℝ => |r|)
    · simpa using hperm.map (fun r : ℝ => |r|)
  have k1 := key x y z
  rw [hq1, hq2, hq3, hmc] at k1
  exact k1.trans (key t y z).symm

/-- Witness for C10 at the concrete inputs x = 0 and x = 7 with y = z = 0. -/
theorem C10_noninterference_witness :
    pack48 0 0 0 >>> 3 = pack48 7 0 0 >>> 3 ∧
    (q1 0 0 0 = q1 7 0 0 ∧ q2 0 0 0 = q2 7 0 0 ∧ q3 0 0 0 = q3 7 0 0 ∧
    max_component 0 0 0 = max_component 7 0 0 ∧
    List.Perm ((unpack_48bit_quaternion 0 0 0).map (fun a => |a|))
      ((unpack_48bit_quaternion 7 0 0).map (fun a => |a|))) :=
  ⟨rfl, C10_noninterference 0 7 0 0 rfl⟩
